import Mathlib

/-
Verification of the series-merging and deduplication engine of
pkg/query/iter.go (Thanos query layer).

Shallow embedding conventions:
* Timestamps are `Int` (Go int64, arithmetic never overflows on the
  inputs considered); sample values are `Int` as well -- every function
  verified here treats the value component as an opaque payload, so the
  choice of carrier does not matter.
* Go's `math.MinInt64` sentinel is the constant `minInt64`.
* A Go sample iterator (`storage.SeriesIterator` / `chunkenc.Iterator`)
  over a finite decoded sample sequence is embedded as a list cursor.
  A freshly created decoded cursor answers `At = (0, 0)` before the
  first positioning, matching the zero-initialised state of the
  Prometheus XOR iterator that backs every decoded chunk.
* Fallible/stateful operations return `Bool × state` mirroring Go's
  `ok` results; functions whose Go counterpart can panic return
  `Option`.
* Loops without a structural measure take an explicit fuel argument;
  theorems are proven for every fuel, so fuel only truncates runs.
-/

/-- One sample: millisecond timestamp and opaque value. -/
structure Sample where
  t : Int
  v : Int
deriving DecidableEq, Repr

instance : Inhabited Sample := ⟨⟨0, 0⟩⟩

/-- Go's math.MinInt64, used by dedupSeriesIterator as the
"nothing emitted yet" sentinel. -/
def minInt64 : Int := -(2 ^ 63)

/-- A label: name/value pair (storepb.Label / labels.Label). -/
structure Label where
  name : String
  value : String
deriving DecidableEq, Repr

/-- An encoded chunk payload (storepb.Chunk): encoding tag plus the
sample sequence its bytes decode to.  The byte-level codec is the
external collaborator of spec section 6; we carry the decoded samples
directly. -/
structure Chunk where
  typ : Nat
  data : List Sample
deriving DecidableEq, Repr

/-- storepb.Chunk_XOR, the only recognised encoding tag. -/
def xorEncoding : Nat := 0

/-- storepb.AggrChunk: a time-bounded chunk carrying optional raw and
pre-aggregated payloads. -/
structure AggrChunk where
  minTime : Int
  maxTime : Int
  raw : Option Chunk
  count : Option Chunk
  sum : Option Chunk
  min : Option Chunk
  max : Option Chunk
  counter : Option Chunk
deriving DecidableEq, Repr

/-! ### removeExactDuplicates (iter.go lines 71-86)

Go compares `ret[len(ret)-1].String() == c.String()`; the protobuf
string rendering is a faithful representation of the struct, so the
comparison is embedded as structural equality on `AggrChunk`. -/

/-- The loop of removeExactDuplicates: `last` is the most recently
appended chunk; a chunk equal to it is skipped, otherwise it is
appended and becomes the new `last`. -/
def rdLoop (last : AggrChunk) : List AggrChunk → List AggrChunk
  | [] => []
  | c :: cs => if last = c then rdLoop last cs else c :: rdLoop c cs

/-- removeExactDuplicates returns chunks without 1:1 duplicates;
input is expected to be sorted by minTime. -/
def removeExactDuplicates : List AggrChunk → List AggrChunk
  | [] => []
  | c :: cs => c :: rdLoop c cs

/-- Sorted ascending by chunk start time, as produced by the sort in
promSeriesSet.Next (iter.go lines 59-61). -/
def sortedByMinTime (l : List AggrChunk) : Prop :=
  List.Chain' (fun a b => a.minTime ≤ b.minTime) l

instance (l : List AggrChunk) : Decidable (sortedByMinTime l) :=
  inferInstanceAs (Decidable (List.Chain' (fun a b : AggrChunk => a.minTime ≤ b.minTime) l))

/-! ### peekLset (iter.go lines 450-464)

The Go loop runs `index` from `0` to `len(replicaLabels)-1` and tests
`lset[len(lset)-index-1]`, i.e. the first `len(replicaLabels)` entries
of the reversed label set; it counts how many of those positions carry
a name in the replica set and finally drops that many labels from the
end.  When the label set is shorter than the replica-name set the Go
indexing goes negative and panics, which the embedding reports as
`none`. -/

/-- dedupSeriesSet.peekLset: strip trailing replica labels.  `rls` is
the configured replica label name set (Go map keys). -/
def peekLset (lset : List Label) (rls : List String) : Option (List Label) :=
  if rls.length = 0 then some lset
  else if lset.length < rls.length then none
  else
    let totalToRemove :=
      (lset.reverse.take rls.length).countP (fun l => decide (l.name ∈ rls))
    some (lset.take (lset.length - totalToRemove))

/-! ### Helper lemmas for removeExactDuplicates -/

/-- The chunk list built by the loop never starts with `last` and never
has two adjacent equal entries. -/
theorem rdLoop_chain (last : AggrChunk) (l : List AggrChunk) :
    List.Chain (fun a b => a ≠ b) last (rdLoop last l) := by
  induction l generalizing last with
  | nil => simp [rdLoop]
  | cons c cs ih =>
    by_cases h : last = c
    · simpa [rdLoop, h] using ih c
    · simpa [rdLoop, h] using List.Chain.cons h (ih c)

/-- Running the loop over a list already free of adjacent duplicates
(including against the previous element) changes nothing. -/
theorem rdLoop_id (last : AggrChunk) (l : List AggrChunk)
    (h : List.Chain (fun a b => a ≠ b) last l) : rdLoop last l = l := by
  induction l generalizing last with
  | nil => simp [rdLoop]
  | cons c cs ih =>
    rcases h with _ | ⟨hne, hch⟩
    simp [rdLoop, hne, ih c hch]

/-- removeExactDuplicates is idempotent, with no side condition. -/
theorem removeExactDuplicates_idem (l : List AggrChunk) :
    removeExactDuplicates (removeExactDuplicates l) = removeExactDuplicates l := by
  cases l with
  | nil => simp [removeExactDuplicates]
  | cons c cs =>
    simp only [removeExactDuplicates]
    rw [rdLoop_id c (rdLoop c cs) (rdLoop_chain c cs)]

/-! ### Helper lemmas for peekLset -/

/-- When the label set decomposes into a replica-free prefix followed by
a suffix of replica-named labels, the loop counts exactly the suffix. -/
theorem peekLset_eq (p s : List Label) (rls : List String)
    (hp : ∀ l ∈ p, l.name ∉ rls) (hs : ∀ l ∈ s, l.name ∈ rls)
    (hnd : (s.map Label.name).Nodup)
    (hlen : rls.length ≤ p.length + s.length) (hne : rls ≠ []) :
    peekLset (p ++ s) rls = some p := by
  have hms : s.length ≤ rls.length := by
    have hsub : (s.map Label.name) ⊆ rls := by
      intro a ha
      rcases List.mem_map.mp ha with ⟨l, hl, rfl⟩
      exact hs l hl
    simpa using (List.subperm_of_subset hnd hsub).length_le
  have hKpos : rls.length ≠ 0 := fun h => hne (List.length_eq_zero.mp h)
  have hlen2 : ¬ ((p ++ s).length < rls.length) := by
    simp only [List.length_append]; omega
  have hrev : (p ++ s).reverse = s.reverse ++ p.reverse := by
    simp [List.reverse_append]
  have htake : ((p ++ s).reverse).take rls.length
      = s.reverse ++ p.reverse.take (rls.length - s.length) := by
    rw [hrev, List.take_append_eq_append_take,
      List.take_of_length_le (by simpa using hms), List.length_reverse]
  have hcount : (((p ++ s).reverse).take rls.length).countP
      (fun l => decide (l.name ∈ rls)) = s.length := by
    rw [htake, List.countP_append]
    have h1 : (s.reverse).countP (fun l => decide (l.name ∈ rls)) = s.length := by
      rw [List.countP_eq_length.mpr]
      · simp
      · intro l hl
        simpa using hs l (List.mem_reverse.mp hl)
    have h2 : (p.reverse.take (rls.length - s.length)).countP
        (fun l => decide (l.name ∈ rls)) = 0 := by
      rw [List.countP_eq_zero.mpr]
      intro l hl
      have : l ∈ p := List.mem_reverse.mp (List.mem_of_mem_take hl)
      simpa using hp l this
    omega
  unfold peekLset
  rw [if_neg hKpos, if_neg hlen2]
  simp only [hcount, List.length_append]
  congr 1
  have : p.length + s.length - s.length = p.length := by omega
  rw [this, List.take_left]

/-! ### List cursor: the embedding of an abstract sample cursor

A `storage.SeriesIterator` over a finite decoded sample sequence.
`cur = none` means the cursor has not been positioned yet (or was
exhausted by a failed seek); `At` then answers the zero sample `(0,0)`,
matching the zero-initialised Prometheus iterator state. -/
structure LIter where
  cur : Option Sample
  rest : List Sample
deriving DecidableEq, Repr

/-- Fresh cursor over a sample sequence, not yet positioned. -/
def freshIter (l : List Sample) : LIter := ⟨none, l⟩

/-- At: the current sample; the zero sample before first positioning. -/
def latv (it : LIter) : Sample := it.cur.getD ⟨0, 0⟩

/-- Next: advance to the following sample. -/
def lnext (it : LIter) : Bool × LIter :=
  match it.rest with
  | [] => (false, it)
  | s :: r => (true, ⟨some s, r⟩)

/-- The scan of Seek: position at the first remaining sample with
timestamp ≥ t. -/
def seekList (t : Int) : List Sample → Bool × LIter
  | [] => (false, ⟨none, []⟩)
  | s :: r => if s.t ≥ t then (true, ⟨some s, r⟩) else seekList t r

/-- Seek: forward-only, keeps the current sample when it already
satisfies the target, otherwise scans the remaining samples. -/
def lseek (it : LIter) (t : Int) : Bool × LIter :=
  match it.cur with
  | some c => if c.t ≥ t then (true, it) else seekList t it.rest
  | none => seekList t it.rest

/-- All samples the cursor can still answer: current plus remaining. -/
def sideSamples (it : LIter) : List Sample := it.cur.toList ++ it.rest

/-- A successful scan lands on a sample meeting the target. -/
theorem seekList_succeeds (t : Int) (l : List Sample) (it : LIter)
    (h : seekList t l = (true, it)) : ∃ s, it.cur = some s ∧ t ≤ s.t := by
  induction l with
  | nil => simp [seekList] at h
  | cons s r ih =>
    by_cases hs : s.t ≥ t
    · simp only [seekList, if_pos hs] at h
      cases h
      exact ⟨s, rfl, hs⟩
    · simp only [seekList, if_neg hs] at h
      exact ih h

/-- A successful seek lands on a sample meeting the target. -/
theorem lseek_succeeds (it : LIter) (t : Int) (it2 : LIter)
    (h : lseek it t = (true, it2)) : ∃ s, it2.cur = some s ∧ t ≤ s.t := by
  rcases it with ⟨cur, rest⟩
  cases cur with
  | none => exact seekList_succeeds t rest it2 (by simpa [lseek] using h)
  | some c =>
    by_cases hcc : c.t ≥ t
    · simp only [lseek, if_pos hcc] at h
      cases h
      exact ⟨c, rfl, hcc⟩
    · simp only [lseek, if_neg hcc] at h
      exact seekList_succeeds t rest it2 h

/-- The scan only discards samples: its result samples come from the
scanned list. -/
theorem seekList_subset (t : Int) (l : List Sample) (b : Bool) (it : LIter)
    (h : seekList t l = (b, it)) : ∀ s ∈ sideSamples it, s ∈ l := by
  induction l with
  | nil =>
    simp only [seekList] at h
    cases h
    intro s hs
    simp [sideSamples] at hs
  | cons c r ih =>
    by_cases hc : c.t ≥ t
    · simp only [seekList, if_pos hc] at h
      cases h
      intro s hs
      simpa [sideSamples] using hs
    · simp only [seekList, if_neg hc] at h
      intro s hs
      exact List.mem_cons_of_mem c (ih h s hs)

/-- Seek only discards samples. -/
theorem lseek_subset (it : LIter) (t : Int) (b : Bool) (it2 : LIter)
    (h : lseek it t = (b, it2)) : ∀ s ∈ sideSamples it2, s ∈ sideSamples it := by
  rcases it with ⟨cur, rest⟩
  cases cur with
  | none =>
    intro s hs
    have := seekList_subset t rest b it2 (by simpa [lseek] using h) s hs
    simp [sideSamples, this]
  | some c =>
    by_cases hcc : c.t ≥ t
    · simp only [lseek, if_pos hcc] at h
      cases h
      intro s hs
      exact hs
    · simp only [lseek, if_neg hcc] at h
      intro s hs
      have := seekList_subset t rest b it2 h s hs
      simp [sideSamples, this]

/-! ### boundedSeriesIterator (iter.go lines 316-360) -/

/-- boundedSeriesIterator: a cursor clipped to `[mint, maxt]`. -/
structure BIt where
  it : LIter
  mint : Int
  maxt : Int
deriving DecidableEq, Repr

/-- boundedSeriesIterator.Seek: fail at once past maxt, clamp below
mint, then delegate. -/
def boundedSeek (b : BIt) (t : Int) : Bool × BIt :=
  if t > b.maxt then (false, b)
  else
    let t2 := if t < b.mint then b.mint else t
    let r := lseek b.it t2
    (r.1, ⟨r.2, b.mint, b.maxt⟩)

/-- boundedSeriesIterator.Next: delegate; re-seek to mint when the new
sample is early; fail permanently once past maxt. -/
def boundedNext (b : BIt) : Bool × BIt :=
  match lnext b.it with
  | (false, it2) => (false, ⟨it2, b.mint, b.maxt⟩)
  | (true, it2) =>
    let t := (latv it2).t
    if t < b.mint then
      match boundedSeek ⟨it2, b.mint, b.maxt⟩ b.mint with
      | (false, b2) => (false, b2)
      | (true, b2) => (decide ((latv b2.it).t ≤ b.maxt), b2)
    else (decide (t ≤ b.maxt), ⟨it2, b.mint, b.maxt⟩)

/-- A successful bounded seek lands at or after the clamped target, in
particular at or after mint. -/
theorem boundedSeek_ge (b : BIt) (t : Int) (b2 : BIt)
    (h : boundedSeek b t = (true, b2)) :
    b.mint ≤ (latv b2.it).t ∧ t ≤ (latv b2.it).t ∧ b2.mint = b.mint ∧ b2.maxt = b.maxt := by
  unfold boundedSeek at h
  by_cases hmax : t > b.maxt
  · simp [if_pos hmax] at h
  · rw [if_neg hmax] at h
    simp only at h
    rcases hr : lseek b.it (if t < b.mint then b.mint else t) with ⟨ok, it2⟩
    rw [hr] at h
    cases h
    rcases lseek_succeeds _ _ _ hr with ⟨s, hcur, hts⟩
    have hlat : (latv it2).t = s.t := by simp [latv, hcur]
    constructor
    · rw [hlat]
      by_cases hm : t < b.mint
      · simpa [if_pos hm] using hts
      · rw [if_neg hm] at hts; omega
    · constructor
      · rw [hlat]
        by_cases hm : t < b.mint
        · rw [if_pos hm] at hts; omega
        · simpa [if_neg hm] using hts
      · exact ⟨rfl, rfl⟩

/-- boundedSeek with a target past maxt fails without touching the
wrapped cursor. -/
theorem boundedSeek_past_maxt (b : BIt) (t : Int) (h : t > b.maxt) :
    boundedSeek b t = (false, b) := by
  unfold boundedSeek
  rw [if_pos h]

/-- boundedSeek with a target below mint (and not past maxt) delegates
to the wrapped cursor with target mint. -/
theorem boundedSeek_clamps (b : BIt) (t : Int) (h1 : t < b.mint) (h2 : ¬ t > b.maxt) :
    boundedSeek b t = ((lseek b.it b.mint).1, ⟨(lseek b.it b.mint).2, b.mint, b.maxt⟩) := by
  unfold boundedSeek
  rw [if_neg h2]
  simp only [if_pos h1]

/-- A successful boundedNext leaves the current sample inside
`[mint, maxt]`. -/
theorem boundedNext_in_range (b : BIt) (b2 : BIt)
    (h : boundedNext b = (true, b2)) :
    b.mint ≤ (latv b2.it).t ∧ (latv b2.it).t ≤ b.maxt := by
  unfold boundedNext at h
  rcases hn : lnext b.it with ⟨ok, it2⟩
  rw [hn] at h
  cases ok with
  | false => simp at h
  | true =>
    simp only at h
    by_cases hm : (latv it2).t < b.mint
    · rw [if_pos hm] at h
      rcases hb : boundedSeek ⟨it2, b.mint, b.maxt⟩ b.mint with ⟨ok2, b3⟩
      rw [hb] at h
      cases ok2 with
      | false => simp at h
      | true =>
        simp only [Prod.mk.injEq] at h
        rcases h with ⟨h1, rfl⟩
        have hge := boundedSeek_ge _ _ _ hb
        simp only [decide_eq_true_eq] at h1
        exact ⟨hge.1, h1⟩
    · rw [if_neg hm] at h
      simp only [Prod.mk.injEq, decide_eq_true_eq] at h
      rcases h with ⟨h1, rfl⟩
      exact ⟨by simpa [latv] using not_lt.mp hm, h1⟩

/-! ### Chunk-level iterators (chunkenc.Iterator role)

A decoded chunk cursor carries its current sample (`(0,0)` in the
freshly decoded, zero-initialised state), the remaining samples and a
terminal error.  `errSeriesIterator` (iter.go lines 307-314) is the
degenerate case with no samples: At answers `(0,0)`, Next and Seek
answer false and Err reports the stored error.  The derived average
cursor (downsample.NewAverageChunkIterator, code of this repository
outside src/) is carried symbolically: only its error surface is
modelled (from the spec, see `avgOfErr`); no theorem below exercises
its sample semantics, and its Next does not advance. -/
inductive CkIt where
  | seq (cur : Sample) (rest : List Sample) (e : Option String)
  | avgOf (cnt : CkIt) (sum : CkIt)
deriving DecidableEq, Repr

instance : Inhabited CkIt := ⟨.seq ⟨0, 0⟩ [] none⟩

/-- chunkenc.Iterator.At. -/
def ckAt : CkIt → Sample
  | .seq c _ _ => c
  | .avgOf _ _ => ⟨0, 0⟩

/-- chunkenc.Iterator.Next.  An access on the symbolic average cursor
does not advance; on an erroring average input this matches the spec's
"reports that error on first access and ends iteration". -/
def ckNext : CkIt → Bool × CkIt
  | .seq _ (s :: r) e => (true, .seq s r e)
  | .seq c [] e => (false, .seq c [] e)
  | it => (false, it)

/-- Modelled from the spec: the error surface of the derived average
cursor, downsample.NewAverageChunkIterator -- code of this repository
that is not under src/.  Spec section 4.1: a chunk lacking a usable
payload or with an unrecognised encoding yields a cursor that reports
that error on first access, and "this error must propagate up through
every composed cursor"; the derived cursor therefore reports the first
non-nil error of its count and sum inputs. -/
def avgOfErr (cntErr sumErr : Option String) : Option String :=
  match cntErr with
  | some e => some e
  | none => sumErr

/-- chunkenc.Iterator.Err; the avgOf arm combines the input errors per
`avgOfErr`. -/
def ckErr : CkIt → Option String
  | .seq _ _ e => e
  | .avgOf cnt sum => avgOfErr (ckErr cnt) (ckErr sum)

/-- errSeriesIterator with message `e` embedded at the chunk level. -/
def errCk (e : Option String) : CkIt := .seq ⟨0, 0⟩ [] e

/-- A freshly decoded chunk cursor over the chunk's samples. -/
def decodedCk (l : List Sample) : CkIt := .seq ⟨0, 0⟩ l none

/-- The external decode boundary (spec section 6): only the XOR tag is
recognised, all others are a hard decode error; good bytes yield a
fresh cursor over the decoded samples. -/
def decodeChunk (c : Chunk) : CkIt :=
  if c.typ = xorEncoding then decodedCk c.data
  else errCk (some "invalid chunk encoding")

/-- getFirstIterator (iter.go lines 285-297): decode the first present
payload; with none present answer the "no valid chunk found" error
cursor. -/
def getFirstIterator : List (Option Chunk) → CkIt
  | [] => errCk (some "no valid chunk found")
  | none :: cs => getFirstIterator cs
  | some c :: _ => decodeChunk c

/-! ### chunkSeriesIterator (iter.go lines 362-416) -/

/-- chunkSeriesIterator state: the chunk cursor list and the current
chunk index. -/
structure CSIState where
  chunks : List CkIt
  i : Nat
deriving DecidableEq, Repr

/-- chunkSeriesIterator.At: the current chunk cursor's sample. -/
def csiAt (st : CSIState) : Sample := ckAt (st.chunks.getD st.i default)

/-- chunkSeriesIterator.Err: the current chunk cursor's error. -/
def csiErr (st : CSIState) : Option String := ckErr (st.chunks.getD st.i default)

mutual

/-- chunkSeriesIterator.Next: advance the current chunk; when it ends
without error and is not last, move on and seek to the last observed
timestamp + 1 (the overlap-skip step).  Fuel only bounds the mutual
seek loop. -/
def csiNextF : Nat → CSIState → Bool × CSIState
  | 0, st => (false, st)
  | fuel + 1, st =>
    let lastT := (csiAt st).t
    match ckNext (st.chunks.getD st.i default) with
    | (true, c2) => (true, ⟨st.chunks.set st.i c2, st.i⟩)
    | (false, c2) =>
      let st1 : CSIState := ⟨st.chunks.set st.i c2, st.i⟩
      if csiErr st1 ≠ none then (false, st1)
      else if st1.i ≥ st1.chunks.length - 1 then (false, st1)
      else csiSeekF fuel ⟨st1.chunks, st1.i + 1⟩ (lastT + 1)

/-- chunkSeriesIterator.Seek: repeatedly advance until the current
timestamp reaches the target. -/
def csiSeekF : Nat → CSIState → Int → Bool × CSIState
  | 0, st, _ => (false, st)
  | fuel + 1, st, t =>
    if (csiAt st).t ≥ t then (true, st)
    else
      match csiNextF fuel st with
      | (false, st2) => (false, st2)
      | (true, st2) => csiSeekF fuel st2 t

end

/-- Fuel that upper-bounds the work of one Next/Seek call: every inner
step either consumes a sample or moves to the next chunk. -/
def csiFuel (st : CSIState) : Nat :=
  (st.chunks.map (fun c => match c with | .seq _ r _ => r.length + 1 | _ => 1)).sum
    + st.chunks.length + 1

/-- chunkSeriesIterator.Next with ample fuel. -/
def csiNext (st : CSIState) : Bool × CSIState := csiNextF (csiFuel st) st

/-- newChunkSeriesIterator (iter.go lines 369-375) result: the empty
chunk list answers the zero-valued errSeriesIterator (its error is
nil); otherwise a chunk series iterator starting at chunk 0. -/
inductive SIt where
  | errit (e : Option String)
  | csi (st : CSIState)
  | counterIt (its : List CkIt)
deriving DecidableEq, Repr

/-- newChunkSeriesIterator. -/
def newChunkSeriesIterator (cs : List CkIt) : SIt :=
  if cs.isEmpty then .errit none
  else .csi ⟨cs, 0⟩

/-- Modelled from the spec: the error surface of the
counter-reconstruction composition, downsample.NewCounterSeriesIterator
-- code of this repository that is not under src/.  Spec sections 4.1
and 7: a chunk error "must propagate up through every composed cursor"
and is "surfaced as a terminal cursor error at first access of that
chunk"; the composition therefore reports its current (initial) chunk
cursor's error, and its access on an erroring cursor fails.  The
counter-reconstruction sample semantics themselves are not modelled
and no theorem exercises them. -/
def counterItErr (its : List CkIt) : Option String := ckErr (its.getD 0 default)

/-- Next on a storage.SeriesIterator of the chunk-series layer.  The
symbolic counter composition does not advance; on an erroring initial
cursor this matches the spec's first-access failure (see
`counterItErr`), and no theorem exercises it on healthy cursors. -/
def sNext : SIt → Bool × SIt
  | .errit e => (false, .errit e)
  | .csi st =>
    let r := csiNext st
    (r.1, .csi r.2)
  | .counterIt its => (false, .counterIt its)

/-- Err of the chunk-series layer; the counter composition's error is
its spec-modelled error surface. -/
def sErr : SIt → Option String
  | .errit e => e
  | .csi st => csiErr st
  | .counterIt its => counterItErr its

/-- At of the chunk-series layer. -/
def sAt : SIt → Sample
  | .errit _ => ⟨0, 0⟩
  | .csi st => csiAt st
  | .counterIt _ => ⟨0, 0⟩

/-- Seek of the chunk-series layer. -/
def sSeek : SIt → Int → Bool × SIt
  | .errit e, _ => (false, .errit e)
  | .csi st, t =>
    let r := csiSeekF (csiFuel st) st t
    (r.1, .csi r.2)
  | .counterIt its, _ => (false, .counterIt its)

/-! ### chunkSeries.Iterator (iter.go lines 198-283): aggregate
selection and the bounded wrapper -/

/-- storepb.Aggr. -/
inductive Aggr where
  | raw
  | count
  | sum
  | min
  | max
  | counter
deriving DecidableEq, Repr

/-- chunkSeries: label set, chunk list, query window and requested
aggregates. -/
structure ChunkSeries where
  lset : List Label
  chunks : List AggrChunk
  mint : Int
  maxt : Int
  aggrs : List Aggr
deriving Repr

/-- chunkSeries.Labels. -/
def chunkSeriesLabels (s : ChunkSeries) : List Label := s.lset

/-- The iterator returned by chunkSeries.Iterator: either an immediate
errSeriesIterator (unresolvable aggregate specification) or a bounded
wrapper around the chunk-series layer.  Nesting depth of the bounded
wrapper is exactly one in the source, so it is a separate layer here. -/
inductive QIt where
  | direct (e : Option String)
  | bounded (inner : SIt) (mint : Int) (maxt : Int)
deriving Repr

/-- The pre-aggregated payload matching a single requested kind. -/
def aggrPayload : Aggr → AggrChunk → Option Chunk
  | .raw, c => c.raw
  | .count, c => c.count
  | .sum, c => c.sum
  | .min, c => c.min
  | .max, c => c.max
  | .counter, c => c.counter

/-- The per-chunk cursor of the average (sum+count) path, iter.go
lines 270-277: decode raw directly when present, otherwise derive the
average cursor from the count and sum payloads. -/
def avgChunkIter (c : AggrChunk) : CkIt :=
  match c.raw with
  | some r => getFirstIterator [some r]
  | none => .avgOf (getFirstIterator [c.count]) (getFirstIterator [c.sum])

/-- chunkSeries.Iterator, transliterated from the switch at iter.go
lines 202-282. -/
def chunkSeriesIterator (s : ChunkSeries) : QIt :=
  match s.aggrs with
  | [k] =>
    match k with
    | .count =>
      .bounded (newChunkSeriesIterator
        (s.chunks.map (fun c => getFirstIterator [c.count, c.raw]))) s.mint s.maxt
    | .sum =>
      .bounded (newChunkSeriesIterator
        (s.chunks.map (fun c => getFirstIterator [c.sum, c.raw]))) s.mint s.maxt
    | .min =>
      .bounded (newChunkSeriesIterator
        (s.chunks.map (fun c => getFirstIterator [c.min, c.raw]))) s.mint s.maxt
    | .max =>
      .bounded (newChunkSeriesIterator
        (s.chunks.map (fun c => getFirstIterator [c.max, c.raw]))) s.mint s.maxt
    | .counter =>
      .bounded (.counterIt
        (s.chunks.map (fun c => getFirstIterator [c.counter, c.raw]))) s.mint s.maxt
    | .raw => .direct (some "unexpected result aggregate type")
  | [a1, a2] =>
    if (a1 = .sum ∧ a2 = .count) ∨ (a1 = .count ∧ a2 = .sum) then
      .bounded (newChunkSeriesIterator (s.chunks.map avgChunkIter)) s.mint s.maxt
    else .direct (some "unexpected result aggregate type")
  | _ => .direct (some "unexpected result aggregate type")

/-- The bounded wrapper's Seek on the chunk-series layer (same logic
as boundedSeek, instantiated at the inner iterator type used by
chunkSeries.Iterator). -/
def qSeekInner (inner : SIt) (mint maxt t : Int) : Bool × SIt :=
  if t > maxt then (false, inner)
  else
    let t2 := if t < mint then mint else t
    sSeek inner t2

/-- Next on the iterator returned by chunkSeries.Iterator: an
unresolvable specification ends iteration at once; otherwise the
bounded wrapper's Next runs over the chunk-series layer. -/
def qNext : QIt → Bool × QIt
  | .direct e => (false, .direct e)
  | .bounded inner mint maxt =>
    match sNext inner with
    | (false, inner2) => (false, .bounded inner2 mint maxt)
    | (true, inner2) =>
      let t := (sAt inner2).t
      if t < mint then
        match qSeekInner inner2 mint maxt mint with
        | (false, inner3) => (false, .bounded inner3 mint maxt)
        | (true, inner3) => (decide ((sAt inner3).t ≤ maxt), .bounded inner3 mint maxt)
      else (decide (t ≤ maxt), .bounded inner2 mint maxt)

/-- Err on the iterator returned by chunkSeries.Iterator. -/
def qErr : QIt → Option String
  | .direct e => e
  | .bounded inner _ _ => sErr inner

/-! ### dedupSeriesIterator (iter.go lines 527-631) -/

/-- dedupSeriesIterator state over two side cursors. -/
structure DState where
  a : LIter
  b : LIter
  aok : Bool
  bok : Bool
  lastT : Int
  penA : Int
  penB : Int
  useA : Bool
deriving DecidableEq, Repr

/-- newDedupSeriesIterator: both sides assumed live, lastT is the
MinInt64 sentinel, penalties zero, useA at its zero value. -/
def freshD (la lb : List Sample) : DState :=
  ⟨freshIter la, freshIter lb, true, true, minInt64, 0, 0, false⟩

/-- dedupSeriesIterator.At. -/
def dedupAt (st : DState) : Sample :=
  if st.useA then latv st.a else latv st.b

/-- dedupSeriesIterator.Next, transliterated: seek each still-live side
to lastT + 1 + its penalty, handle single-side cases, otherwise pick
the smaller timestamp (ties favour side A), penalising the loser. -/
def dedupNext (st : DState) : Bool × DState :=
  let ar := if st.aok then lseek st.a (st.lastT + 1 + st.penA) else (false, st.a)
  let br := if st.bok then lseek st.b (st.lastT + 1 + st.penB) else (false, st.b)
  match ar, br with
  | (false, a2), (false, b2) =>
    (false, ⟨a2, b2, false, false, st.lastT, st.penA, st.penB, false⟩)
  | (false, a2), (true, b2) =>
    (true, ⟨a2, b2, false, true, (latv b2).t, st.penA, 0, false⟩)
  | (true, a2), (false, b2) =>
    (true, ⟨a2, b2, true, false, (latv a2).t, 0, st.penB, true⟩)
  | (true, a2), (true, b2) =>
    let ta := (latv a2).t
    let tb := (latv b2).t
    if ta ≤ tb then
      (true, ⟨a2, b2, true, true, ta, 0,
        if st.lastT = minInt64 then 5000 else 2 * (ta - st.lastT), true⟩)
    else
      (true, ⟨a2, b2, true, true, tb,
        if st.lastT = minInt64 then 5000 else 2 * (tb - st.lastT), 0, false⟩)

/-- dedupSeriesIterator.Seek: advance until the current timestamp is
positive and has reached the target. -/
def dedupSeekF : Nat → DState → Int → Bool × DState
  | 0, st, _ => (false, st)
  | fuel + 1, st, t =>
    let ts := (dedupAt st).t
    if ts > 0 ∧ ts ≥ t then (true, st)
    else
      match dedupNext st with
      | (false, st2) => (false, st2)
      | (true, st2) => dedupSeekF fuel st2 t

/-- The sample sequence emitted by up to `n` Next calls. -/
def dedupTrace : Nat → DState → List Sample
  | 0, _ => []
  | n + 1, st =>
    match dedupNext st with
    | (false, _) => []
    | (true, st2) => dedupAt st2 :: dedupTrace n st2

/-! ### The spec-side description of the dedup advance (claim C1) -/

/-- Dedup state as the spec describes it: `lastEmitted` is an explicit
option rather than a MinInt64 sentinel. -/
structure SpecDState where
  a : LIter
  b : LIter
  aok : Bool
  bok : Bool
  lastEmitted : Option Int
  penA : Int
  penB : Int
  useA : Bool
deriving DecidableEq, Repr

/-- Modelled from the spec prose of section 4.6: every advance first
seeks each still-live side to lastEmittedTimestamp + 1 + that side's
penalty (from the beginning when nothing has been emitted); with both
sides live the smaller current timestamp is selected, a tie selecting
side A; the unselected side's penalty becomes twice the gap to the
previous emitted timestamp, or 5000 when there is none; the selected
side's penalty resets to zero and its sample is emitted; with exactly
one live side that side is selected unconditionally and its penalty
reset. -/
def dedupNextSpec (st : SpecDState) : Bool × SpecDState :=
  let base := (st.lastEmitted.getD minInt64) + 1
  let ar := if st.aok then lseek st.a (base + st.penA) else (false, st.a)
  let br := if st.bok then lseek st.b (base + st.penB) else (false, st.b)
  match ar, br with
  | (false, a2), (false, b2) =>
    (false, ⟨a2, b2, false, false, st.lastEmitted, st.penA, st.penB, false⟩)
  | (false, a2), (true, b2) =>
    (true, ⟨a2, b2, false, true, some (latv b2).t, st.penA, 0, false⟩)
  | (true, a2), (false, b2) =>
    (true, ⟨a2, b2, true, false, some (latv a2).t, 0, st.penB, true⟩)
  | (true, a2), (true, b2) =>
    let ta := (latv a2).t
    let tb := (latv b2).t
    if ta ≤ tb then
      (true, ⟨a2, b2, true, true, some ta, 0,
        match st.lastEmitted with
        | some l => 2 * (ta - l)
        | none => 5000, true⟩)
    else
      (true, ⟨a2, b2, true, true, some tb,
        match st.lastEmitted with
        | some l => 2 * (tb - l)
        | none => 5000, 0, false⟩)

/-- Abstraction from the code state to the spec state: the sentinel
becomes `none`. -/
def absD (st : DState) : SpecDState :=
  ⟨st.a, st.b, st.aok, st.bok,
    if st.lastT = minInt64 then none else some st.lastT,
    st.penA, st.penB, st.useA⟩

/-- Modelled from the spec prose of claim C8: repeatedly advance until
the current emitted timestamp reaches the target (before anything has
been emitted there is no current emitted timestamp, so advance). -/
def specSeekF : Nat → DState → Int → Bool × DState
  | 0, st, _ => (false, st)
  | fuel + 1, st, t =>
    if st.lastT ≠ minInt64 ∧ (dedupAt st).t ≥ t then (true, st)
    else
      match dedupNext st with
      | (false, st2) => (false, st2)
      | (true, st2) => specSeekF fuel st2 t

/-- Side swap: exchanging the two input cursors of the dedup iterator,
with the selection flag flipped accordingly. -/
def swapD (st : DState) : DState :=
  ⟨st.b, st.a, st.bok, st.aok, st.lastT, st.penB, st.penA, !st.useA⟩

/-- A successful seek's current sample comes from the cursor's samples
and meets the target. -/
theorem lseek_latv_mem (it : LIter) (t : Int) (it2 : LIter)
    (h : lseek it t = (true, it2)) :
    latv it2 ∈ sideSamples it ∧ t ≤ (latv it2).t := by
  rcases lseek_succeeds it t it2 h with ⟨s, hcur, hts⟩
  have hv : latv it2 = s := by simp [latv, hcur]
  rw [hv]
  refine ⟨lseek_subset it t true it2 h s ?_, hts⟩
  simp [sideSamples, hcur]

/-- One dedup advance agrees with the spec prose modulo the sentinel
abstraction, for cursors whose timestamps stay above the sentinel. -/
theorem dedupNext_refines (st : DState)
    (h : ∀ s ∈ sideSamples st.a ++ sideSamples st.b, minInt64 < s.t) :
    (dedupNext st).1 = (dedupNextSpec (absD st)).1 ∧
      absD (dedupNext st).2 = (dedupNextSpec (absD st)).2 := by
  rcases st with ⟨a, b, aok, bok, lastT, penA, penB, useA⟩
  have ha' : ∀ s ∈ sideSamples a, minInt64 < s.t := fun s hs =>
    h s (List.mem_append_left _ hs)
  have hb' : ∀ s ∈ sideSamples b, minInt64 < s.t := fun s hs =>
    h s (List.mem_append_right _ hs)
  have hbase : (Option.getD (if lastT = minInt64 then none else some lastT) minInt64)
      = lastT := by
    by_cases hl : lastT = minInt64 <;> simp [hl]
  simp only [dedupNext, dedupNextSpec, absD, hbase]
  cases aok <;> cases bok <;> simp only [if_true, if_false, Bool.false_eq_true,
    reduceIte]
  · simp
  · rcases hrb : lseek b (lastT + 1 + penB) with ⟨rb, b2⟩
    cases rb
    · simp
    · have hmem := lseek_latv_mem b _ b2 hrb
      have : ¬ ((latv b2).t = minInt64) := by
        have := hb' _ hmem.1; omega
      simp [this]
  · rcases hra : lseek a (lastT + 1 + penA) with ⟨ra, a2⟩
    cases ra
    · simp
    · have hmem := lseek_latv_mem a _ a2 hra
      have : ¬ ((latv a2).t = minInt64) := by
        have := ha' _ hmem.1; omega
      simp [this]
  · rcases hra : lseek a (lastT + 1 + penA) with ⟨ra, a2⟩
    rcases hrb : lseek b (lastT + 1 + penB) with ⟨rb, b2⟩
    cases ra <;> cases rb
    · simp
    · have hmem := lseek_latv_mem b _ b2 hrb
      have : ¬ ((latv b2).t = minInt64) := by
        have := hb' _ hmem.1; omega
      simp [this]
    · have hmem := lseek_latv_mem a _ a2 hra
      have : ¬ ((latv a2).t = minInt64) := by
        have := ha' _ hmem.1; omega
      simp [this]
    · have hmemA := lseek_latv_mem a _ a2 hra
      have hna : ¬ ((latv a2).t = minInt64) := by
        have := ha' _ hmemA.1; omega
      have hmemB := lseek_latv_mem b _ b2 hrb
      have hnb : ¬ ((latv b2).t = minInt64) := by
        have := hb' _ hmemB.1; omega
      by_cases hcmp : (latv a2).t ≤ (latv b2).t <;>
        by_cases hl : lastT = minInt64 <;>
          simp [hcmp, hl, hna, hnb]

/-- dedupSeriesIterator.At is unaffected by swapping sides. -/
theorem dedupAt_swap (st : DState) : dedupAt (swapD st) = dedupAt st := by
  rcases st with ⟨a, b, aok, bok, lastT, penA, penB, useA⟩
  cases useA <;> simp [dedupAt, swapD]

/-- dedupSeriesIterator.Next never reads the selection flag. -/
theorem dedupNext_useA (a b : LIter) (aok bok : Bool) (lastT pA pB : Int)
    (u u' : Bool) :
    dedupNext ⟨a, b, aok, bok, lastT, pA, pB, u⟩
      = dedupNext ⟨a, b, aok, bok, lastT, pA, pB, u'⟩ := rfl

/-- dedupSeriesIterator.Next only discards samples from either side. -/
theorem dedupNext_subset (st : DState) (r : Bool) (st2 : DState)
    (h : dedupNext st = (r, st2)) :
    (∀ s ∈ sideSamples st2.a, s ∈ sideSamples st.a) ∧
      (∀ s ∈ sideSamples st2.b, s ∈ sideSamples st.b) := by
  rcases st with ⟨a, b, aok, bok, lastT, penA, penB, useA⟩
  simp only [dedupNext] at h
  cases aok <;> cases bok <;> simp only [if_true, if_false, Bool.false_eq_true,
    reduceIte] at h
  · cases h
    exact ⟨fun s hs => hs, fun s hs => hs⟩
  · rcases hrb : lseek b (lastT + 1 + penB) with ⟨rb, b2⟩
    rw [hrb] at h
    cases rb <;> cases h <;>
      exact ⟨fun s hs => hs, fun s hs => lseek_subset b _ _ b2 hrb s hs⟩
  · rcases hra : lseek a (lastT + 1 + penA) with ⟨ra, a2⟩
    rw [hra] at h
    cases ra <;> cases h <;>
      exact ⟨fun s hs => lseek_subset a _ _ a2 hra s hs, fun s hs => hs⟩
  · rcases hra : lseek a (lastT + 1 + penA) with ⟨ra, a2⟩
    rcases hrb : lseek b (lastT + 1 + penB) with ⟨rb, b2⟩
    rw [hra, hrb] at h
    have pa : ∀ s ∈ sideSamples a2, s ∈ sideSamples a :=
      fun s hs => lseek_subset a _ _ a2 hra s hs
    have pb : ∀ s ∈ sideSamples b2, s ∈ sideSamples b :=
      fun s hs => lseek_subset b _ _ b2 hrb s hs
    cases ra <;> cases rb
    · cases h; exact ⟨pa, pb⟩
    · cases h; exact ⟨pa, pb⟩
    · cases h; exact ⟨pa, pb⟩
    · simp only at h
      by_cases hcmp : (latv a2).t ≤ (latv b2).t
      · rw [if_pos hcmp] at h; cases h; exact ⟨pa, pb⟩
      · rw [if_neg hcmp] at h; cases h; exact ⟨pa, pb⟩

/-- Swapping the sides commutes with one advance, as long as the two
sides cannot answer equal timestamps after their seeks. -/
theorem dedupNext_swap (st : DState)
    (htie : ∀ a2 b2 : LIter, lseek st.a (st.lastT + 1 + st.penA) = (true, a2) →
      lseek st.b (st.lastT + 1 + st.penB) = (true, b2) →
      (latv a2).t ≠ (latv b2).t) :
    (dedupNext (swapD st)).1 = (dedupNext st).1 ∧
      ((dedupNext st).1 = true → (dedupNext (swapD st)).2 = swapD (dedupNext st).2) := by
  rcases st with ⟨a, b, aok, bok, lastT, penA, penB, useA⟩
  simp only [swapD, dedupNext] at htie ⊢
  cases aok <;> cases bok <;> simp only [if_true, if_false, Bool.false_eq_true,
    reduceIte]
  · simp
  · rcases hrb : lseek b (lastT + 1 + penB) with ⟨rb, b2⟩
    cases rb <;> simp [swapD]
  · rcases hra : lseek a (lastT + 1 + penA) with ⟨ra, a2⟩
    cases ra <;> simp [swapD]
  · rcases hra : lseek a (lastT + 1 + penA) with ⟨ra, a2⟩
    rcases hrb : lseek b (lastT + 1 + penB) with ⟨rb, b2⟩
    cases ra <;> cases rb <;> simp only []
    · simp
    · simp [swapD]
    · simp [swapD]
    · have hne : (latv a2).t ≠ (latv b2).t := htie a2 b2 hra hrb
      by_cases hcmp : (latv a2).t ≤ (latv b2).t
      · have hcmp2 : ¬ ((latv b2).t ≤ (latv a2).t) := by omega
        simp [hcmp, hcmp2, swapD]
      · have hcmp2 : (latv b2).t ≤ (latv a2).t := by omega
        simp [hcmp, hcmp2, swapD]

/-- The emitted trace is unchanged by swapping the sides, whenever the
two cursors draw their samples from timestamp-disjoint pools. -/
theorem dedupTrace_swap (A B : List Sample)
    (hdisj : ∀ sa ∈ A, ∀ sb ∈ B, sa.t ≠ sb.t) :
    ∀ (n : Nat) (st : DState),
      (∀ s ∈ sideSamples st.a, s ∈ A) → (∀ s ∈ sideSamples st.b, s ∈ B) →
      dedupTrace n (swapD st) = dedupTrace n st := by
  intro n
  induction n with
  | zero => intro st _ _; rfl
  | succ n ih =>
    intro st hA hB
    have htie : ∀ a2 b2 : LIter, lseek st.a (st.lastT + 1 + st.penA) = (true, a2) →
        lseek st.b (st.lastT + 1 + st.penB) = (true, b2) →
        (latv a2).t ≠ (latv b2).t := by
      intro a2 b2 hra hrb
      have hma := (lseek_latv_mem _ _ _ hra).1
      have hmb := (lseek_latv_mem _ _ _ hrb).1
      exact hdisj _ (hA _ hma) _ (hB _ hmb)
    have hsw := dedupNext_swap st htie
    rcases hr : dedupNext st with ⟨ok, st2⟩
    cases ok with
    | false =>
      have h1 : (dedupNext (swapD st)).1 = false := by rw [hsw.1, hr]
      rcases hr2 : dedupNext (swapD st) with ⟨ok2, st3⟩
      rw [hr2] at h1
      subst h1
      simp only [dedupTrace, hr, hr2]
    | true =>
      have h2 : dedupNext (swapD st) = (true, swapD st2) := by
        have ha := hsw.1
        have hb := hsw.2 (by rw [hr])
        rw [hr] at ha hb
        rcases hr2 : dedupNext (swapD st) with ⟨ok2, st3⟩
        rw [hr2] at ha hb
        simp only at ha hb
        rw [ha, hb]
      simp only [dedupTrace, hr, h2]
      have hsub := dedupNext_subset st true st2 hr
      rw [dedupAt_swap, ih st2 (fun s hs => hA s (hsub.1 s hs)) (fun s hs => hB s (hsub.2 s hs))]

/-- Merging (B, A) is the side swap of merging (A, B) up to the initial
selection flag, which Next never reads. -/
theorem dedupTrace_fresh_swap (A B : List Sample) (n : Nat) :
    dedupTrace n (freshD B A) = dedupTrace n (swapD (freshD A B)) := by
  cases n with
  | zero => rfl
  | succ n =>
    have h : dedupNext (freshD B A) = dedupNext (swapD (freshD A B)) := by
      simp only [freshD, swapD]
      exact dedupNext_useA _ _ _ _ _ _ _ _ _
    simp only [dedupTrace, h]

/-- Reachability invariant of the dedup iterator over positive-time
cursors: samples are positive, and once something has been emitted the
current sample is exactly the last emitted one. -/
def GoodD (st : DState) : Prop :=
  (∀ s ∈ sideSamples st.a, 0 < s.t) ∧ (∀ s ∈ sideSamples st.b, 0 < s.t) ∧
    (st.lastT ≠ minInt64 → (dedupAt st).t = st.lastT ∧ 0 < st.lastT) ∧
    (st.lastT = minInt64 → (dedupAt st).t ≤ 0)

/-- The sentinel is negative. -/
theorem minInt64_neg : minInt64 < 0 := by norm_num [minInt64]

/-- A fresh dedup iterator over positive-time samples satisfies the
invariant. -/
theorem goodD_fresh (A B : List Sample)
    (hA : ∀ s ∈ A, 0 < s.t) (hB : ∀ s ∈ B, 0 < s.t) : GoodD (freshD A B) := by
  refine ⟨?_, ?_, ?_, ?_⟩
  · intro s hs
    exact hA s (by simpa [freshD, freshIter, sideSamples] using hs)
  · intro s hs
    exact hB s (by simpa [freshD, freshIter, sideSamples] using hs)
  · intro hl
    exact absurd rfl hl
  · intro _
    simp [freshD, dedupAt, freshIter, latv]

/-- A successful advance emits the sample the iterator now reports: its
timestamp is the new lastT and the sample comes from one of the sides. -/
theorem dedupNext_emit (st st2 : DState) (h : dedupNext st = (true, st2)) :
    (dedupAt st2).t = st2.lastT ∧
      dedupAt st2 ∈ sideSamples st.a ++ sideSamples st.b := by
  rcases st with ⟨a, b, aok, bok, lastT, penA, penB, useA⟩
  simp only [dedupNext] at h
  cases aok <;> cases bok <;> simp only [if_true, if_false, Bool.false_eq_true,
    reduceIte] at h
  · cases h
  · rcases hrb : lseek b (lastT + 1 + penB) with ⟨rb, b2⟩
    rw [hrb] at h
    cases rb
    · cases h
    · cases h
      refine ⟨by simp [dedupAt], ?_⟩
      exact List.mem_append_right _ ((lseek_latv_mem _ _ _ hrb).1)
  · rcases hra : lseek a (lastT + 1 + penA) with ⟨ra, a2⟩
    rw [hra] at h
    cases ra
    · cases h
    · cases h
      refine ⟨by simp [dedupAt], ?_⟩
      exact List.mem_append_left _ ((lseek_latv_mem _ _ _ hra).1)
  · rcases hra : lseek a (lastT + 1 + penA) with ⟨ra, a2⟩
    rcases hrb : lseek b (lastT + 1 + penB) with ⟨rb, b2⟩
    rw [hra, hrb] at h
    cases ra <;> cases rb
    · cases h
    · cases h
      refine ⟨by simp [dedupAt], ?_⟩
      exact List.mem_append_right _ ((lseek_latv_mem _ _ _ hrb).1)
    · cases h
      refine ⟨by simp [dedupAt], ?_⟩
      exact List.mem_append_left _ ((lseek_latv_mem _ _ _ hra).1)
    · simp only at h
      by_cases hcmp : (latv a2).t ≤ (latv b2).t
      · rw [if_pos hcmp] at h
        cases h
        refine ⟨by simp [dedupAt], ?_⟩
        exact List.mem_append_left _ ((lseek_latv_mem _ _ _ hra).1)
      · rw [if_neg hcmp] at h
        cases h
        refine ⟨by simp [dedupAt], ?_⟩
        exact List.mem_append_right _ ((lseek_latv_mem _ _ _ hrb).1)

/-- One successful advance preserves the invariant. -/
theorem goodD_step (st st2 : DState) (hg : GoodD st)
    (h : dedupNext st = (true, st2)) : GoodD st2 := by
  have hsub := dedupNext_subset st true st2 h
  have hemit := dedupNext_emit st st2 h
  have hpos : 0 < (dedupAt st2).t := by
    rcases List.mem_append.mp hemit.2 with hm | hm
    · exact hg.1 _ hm
    · exact hg.2.1 _ hm
  refine ⟨fun s hs => hg.1 s (hsub.1 s hs), fun s hs => hg.2.1 s (hsub.2 s hs),
    ?_, ?_⟩
  · intro _
    exact ⟨hemit.1, by rw [← hemit.1]; exact hpos⟩
  · intro heq
    exfalso
    have := minInt64_neg
    rw [← hemit.1] at heq
    omega

/-- On invariant states the code's seek guard (positive and past the
target) coincides with the spec's guard (something emitted and past the
target), so dedup Seek is exactly the prose loop. -/
theorem dedupSeek_eq_specSeek (fuel : Nat) :
    ∀ (st : DState) (t : Int), GoodD st →
      dedupSeekF fuel st t = specSeekF fuel st t := by
  induction fuel with
  | zero => intro st t _; rfl
  | succ fuel ih =>
    intro st t hg
    by_cases hcode : (dedupAt st).t > 0 ∧ (dedupAt st).t ≥ t
    · have hspec : st.lastT ≠ minInt64 ∧ (dedupAt st).t ≥ t := by
        refine ⟨fun heq => ?_, hcode.2⟩
        have h0 := hg.2.2.2 heq
        have h1 := hcode.1
        omega
      simp only [dedupSeekF, specSeekF, if_pos hcode, if_pos hspec]
    · have hspec : ¬ (st.lastT ≠ minInt64 ∧ (dedupAt st).t ≥ t) := by
        intro hc
        have h1 := hg.2.2.1 hc.1
        exact hcode ⟨by omega, hc.2⟩
      simp only [dedupSeekF, specSeekF, if_neg hcode, if_neg hspec]
      rcases hr : dedupNext st with ⟨ok, st2⟩
      cases ok
      · rfl
      · exact ih st2 t (goodD_step st st2 hg hr)


/-! ### Strict monotonicity of the chunk series iterator (claim C2) -/

/-- The placeholder cursor, spelled out. -/
theorem ckDefault_eq : (default : CkIt) = .seq ⟨0, 0⟩ [] none := rfl

/-- A well-formed decoded chunk cursor: no error, a nonnegative current
timestamp (the fresh placeholder is 0), strictly increasing from the
current position, and strictly positive remaining timestamps. -/
def ChunkOk : CkIt → Prop
  | .seq cur rest e =>
    e = none ∧ 0 ≤ cur.t ∧
      List.Chain (fun x y : Sample => x.t < y.t) cur rest ∧
      ∀ s ∈ rest, 0 < s.t
  | .avgOf _ _ => False

/-- chunkSeriesIterator invariant: every chunk cursor is well formed. -/
def CSIInv (st : CSIState) : Prop := ∀ c ∈ st.chunks, ChunkOk c

/-- The placeholder cursor is well formed. -/
theorem chunkOk_default : ChunkOk (default : CkIt) := by
  refine ⟨rfl, le_refl 0, List.Chain.nil, ?_⟩
  intro s hs
  simp at hs

/-- The cursor the iterator currently reads is well formed. -/
theorem csiInv_chunk (st : CSIState) (h : CSIInv st) :
    ChunkOk (st.chunks.getD st.i default) := by
  by_cases hi : st.i < st.chunks.length
  · rw [List.getD_eq_getElem _ _ hi]
    exact h _ (List.getElem_mem hi)
  · rw [List.getD_eq_default _ _ (by omega)]
    exact chunkOk_default

/-- Unfolding of Next when the current chunk cursor still has samples. -/
theorem csiNextF_adv (fuel : Nat) (st : CSIState) (cur s : Sample)
    (rest : List Sample) (e : Option String)
    (hc : st.chunks.getD st.i default = .seq cur (s :: rest) e) :
    csiNextF (fuel + 1) st
      = (true, ⟨st.chunks.set st.i (.seq s rest e), st.i⟩) := by
  simp only [csiNextF, hc, ckNext]

/-- Unfolding of Next when the current chunk cursor is exhausted. -/
theorem csiNextF_exhausted (fuel : Nat) (st : CSIState) (cur : Sample)
    (e : Option String)
    (hc : st.chunks.getD st.i default = .seq cur [] e) :
    csiNextF (fuel + 1) st
      = (if csiErr ⟨st.chunks.set st.i (.seq cur [] e), st.i⟩ ≠ none then
          (false, ⟨st.chunks.set st.i (.seq cur [] e), st.i⟩)
        else if st.i ≥ (st.chunks.set st.i (.seq cur [] e)).length - 1 then
          (false, ⟨st.chunks.set st.i (.seq cur [] e), st.i⟩)
        else csiSeekF fuel ⟨st.chunks.set st.i (.seq cur [] e), st.i + 1⟩
          ((csiAt st).t + 1)) := by
  simp only [csiNextF, hc, ckNext]

/-- Setting back an exhausted cursor keeps every chunk well formed. -/
theorem csiInv_set (st : CSIState) (c : CkIt) (hinv : CSIInv st)
    (hok : ChunkOk c) : ∀ d ∈ st.chunks.set st.i c, ChunkOk d := by
  intro d hd
  rcases List.mem_or_eq_of_mem_set hd with hm | rfl
  · exact hinv d hm
  · exact hok

/-- Fuel-indexed progress: Next and Seek preserve the invariant, a
successful Next strictly advances the current timestamp, and a
successful Seek reaches its target. -/
theorem csi_step_lemma (fuel : Nat) :
    (∀ st r st2, CSIInv st → csiNextF fuel st = (r, st2) →
      CSIInv st2 ∧ (r = true → (csiAt st).t < (csiAt st2).t)) ∧
    (∀ st t r st2, CSIInv st → csiSeekF fuel st t = (r, st2) →
      CSIInv st2 ∧ (r = true → t ≤ (csiAt st2).t)) := by
  induction fuel with
  | zero =>
    constructor
    · intro st r st2 hinv h
      simp only [csiNextF] at h
      cases h
      exact ⟨hinv, by simp⟩
    · intro st t r st2 hinv h
      simp only [csiSeekF] at h
      cases h
      exact ⟨hinv, by simp⟩
  | succ fuel ih =>
    have ihN := ih.1
    have ihS := ih.2
    constructor
    · -- Next
      intro st r st2 hinv h
      have hok := csiInv_chunk st hinv
      rcases hc : st.chunks.getD st.i default with ⟨cur, rest, e⟩ | ⟨cnt, sum⟩
      · rw [hc] at hok
        rcases hok with ⟨he, hc0, hch, hpos⟩
        cases rest with
        | cons s rest2 =>
          -- the current chunk advances
          rw [csiNextF_adv fuel st cur s rest2 e hc] at h
          cases h
          have hi : st.i < st.chunks.length := by
            by_contra hcon
            rw [List.getD_eq_default _ _ (by omega), ckDefault_eq] at hc
            simp at hc
          rcases hch with _ | ⟨hlt, hch2⟩
          constructor
          · exact csiInv_set st _ hinv
              ⟨he, by have := hpos s (by simp); omega, hch2,
                fun x hx => hpos x (by simp [hx])⟩
          · intro _
            have hset : ((st.chunks.set st.i (CkIt.seq s rest2 e)).getD st.i default)
                = CkIt.seq s rest2 e := by
              rw [List.getD_eq_getElem _ _ (by simpa using hi)]
              exact List.getElem_set_self _
            simp only [csiAt, hset, hc, ckAt]
            exact hlt
        | nil =>
          -- the current chunk is exhausted
          rw [csiNextF_exhausted fuel st cur e hc] at h
          have hinv1 : CSIInv ⟨st.chunks.set st.i (.seq cur [] e), st.i⟩ :=
            csiInv_set st _ hinv ⟨he, hc0, List.Chain.nil, by simp⟩
          by_cases herr : csiErr ⟨st.chunks.set st.i (.seq cur [] e), st.i⟩ ≠ none
          · rw [if_pos herr] at h
            cases h
            exact ⟨hinv1, by simp⟩
          · rw [if_neg herr] at h
            by_cases hlast : st.i ≥ (st.chunks.set st.i (.seq cur [] e)).length - 1
            · rw [if_pos hlast] at h
              cases h
              exact ⟨hinv1, by simp⟩
            · rw [if_neg hlast] at h
              have hres := ihS ⟨st.chunks.set st.i (.seq cur [] e), st.i + 1⟩
                ((csiAt st).t + 1) r st2 hinv1 h
              refine ⟨hres.1, fun hr => ?_⟩
              have := hres.2 hr
              omega
      · rw [hc] at hok
        exact absurd hok not_false
    · -- Seek
      intro st t r st2 hinv h
      simp only [csiSeekF] at h
      by_cases hge : (csiAt st).t ≥ t
      · rw [if_pos hge] at h
        cases h
        exact ⟨hinv, fun _ => hge⟩
      · rw [if_neg hge] at h
        rcases hn : csiNextF fuel st with ⟨ok, st3⟩
        rw [hn] at h
        cases ok
        · cases h
          exact ⟨(ihN st false _ hinv hn).1, by simp⟩
        · exact ihS st3 t r st2 (ihN st true st3 hinv hn).1 h

/-- Fresh chunk series iterator over a list of decoded chunk sample
sequences (index 0, every cursor in its zero state). -/
def initCSI (css : List (List Sample)) : CSIState := ⟨css.map decodedCk, 0⟩

/-- The sample sequence emitted by up to `n` Next calls of the chunk
series iterator. -/
def csiTrace : Nat → CSIState → List Sample
  | 0, _ => []
  | n + 1, st =>
    match csiNext st with
    | (false, _) => []
    | (true, st2) => csiAt st2 :: csiTrace n st2

/-- A fresh iterator over positive, strictly increasing chunk sample
sequences satisfies the invariant. -/
theorem csiInv_init (css : List (List Sample))
    (hpos : ∀ c ∈ css, ∀ s ∈ c, 0 < s.t)
    (hinc : ∀ c ∈ css, List.Chain' (fun x y : Sample => x.t < y.t) c) :
    CSIInv (initCSI css) := by
  intro c hc
  rcases List.mem_map.mp hc with ⟨l, hl, rfl⟩
  refine ⟨rfl, le_refl 0, ?_, fun s hs => hpos l hl s hs⟩
  cases l with
  | nil => exact List.Chain.nil
  | cons s r =>
    exact List.Chain.cons (hpos _ hl s (by simp)) (hinc _ hl)

/-- The emitted timestamps form an ascending chain from the current
position. -/
theorem csiTrace_chain (n : Nat) : ∀ st, CSIInv st →
    List.Chain (fun x y : Int => x < y) (csiAt st).t
      ((csiTrace n st).map (fun s => s.t)) := by
  induction n with
  | zero => intro st _; exact List.Chain.nil
  | succ n ih =>
    intro st hinv
    rcases hr : csiNext st with ⟨ok, st2⟩
    cases ok
    · simp [csiTrace, hr]
    · have hstep := (csi_step_lemma (csiFuel st)).1 st true st2 hinv hr
      simp only [csiTrace, hr, List.map]
      exact List.Chain.cons (hstep.2 rfl) (ih st2 hstep.1)

/-- A chain from an anchor yields a chain within the list. -/
theorem chain_to_chain2 {α : Type} (R : α → α → Prop) (a : α) (l : List α)
    (h : List.Chain R a l) : List.Chain' R l := by
  cases h with
  | nil => trivial
  | cons hR hch => exact hch

/-! ### Claim theorems -/

/-- C10: for every chunk list sorted by minTime, removeExactDuplicates
applied to its own output yields the same list as applying it once. -/
theorem claim_c10_idem (l : List AggrChunk) (h : sortedByMinTime l) :
    removeExactDuplicates (removeExactDuplicates l) = removeExactDuplicates l :=
  removeExactDuplicates_idem l

/-- C10 witness at a concrete sorted chunk list with a duplicate. -/
theorem claim_c10_witness :
    sortedByMinTime
        [⟨0, 1, none, none, none, none, none, none⟩,
          ⟨0, 1, none, none, none, none, none, none⟩] ∧
      removeExactDuplicates (removeExactDuplicates
        [⟨0, 1, none, none, none, none, none, none⟩,
          ⟨0, 1, none, none, none, none, none, none⟩])
        = removeExactDuplicates
          [⟨0, 1, none, none, none, none, none, none⟩,
            ⟨0, 1, none, none, none, none, none, none⟩] :=
  ⟨by simp [sortedByMinTime], claim_c10_idem _ (by simp [sortedByMinTime])⟩

/-- C4 counterexample: the cursor built from an empty chunk list
reports a nil error, not the non-nil terminal error the claim
asserts. -/
theorem claim_c4_counterexample :
    sErr (newChunkSeriesIterator []) = none ∧
      (sNext (newChunkSeriesIterator [])).1 = false := by
  constructor <;> rfl

/-- C4 amended: an empty chunk list yields the zero-valued
errSeriesIterator, which ends iteration immediately on every access
with a nil error -- an empty series, not a non-nil terminal error. -/
theorem claim_c4_empty_is_nil_error_series :
    newChunkSeriesIterator [] = .errit none ∧
      sErr (newChunkSeriesIterator []) = none ∧
      (sNext (newChunkSeriesIterator [])).1 = false ∧
      ∀ t : Int, (sSeek (newChunkSeriesIterator []) t).1 = false :=
  ⟨rfl, rfl, rfl, fun _ => rfl⟩

/-- C3 counterexample: a successful bounded seek can land strictly
after maxt, contradicting the claim that every successful operation
leaves the timestamp inside the window. -/
theorem claim_c3_counterexample :
    (boundedSeek ⟨freshIter [⟨20, 1⟩], 0, 10⟩ 5).1 = true ∧
      (latv (boundedSeek ⟨freshIter [⟨20, 1⟩], 0, 10⟩ 5).2.it).t = 20 ∧
      ¬ ((latv (boundedSeek ⟨freshIter [⟨20, 1⟩], 0, 10⟩ 5).2.it).t ≤ 10) := by
  refine ⟨rfl, rfl, by decide⟩

/-- C3 amended: a successful advance lands inside `[mint, maxt]`;
seek past maxt fails without touching the wrapped cursor; seek below
mint delegates with target mint; a successful seek lands at or after
mint and its target, but is not bounded above by maxt. -/
theorem claim_c3_bounded_window (b b2 : BIt) (t : Int) :
    (boundedNext b = (true, b2) →
      b.mint ≤ (latv b2.it).t ∧ (latv b2.it).t ≤ b.maxt) ∧
    (t > b.maxt → boundedSeek b t = (false, b)) ∧
    (t < b.mint → ¬ t > b.maxt →
      boundedSeek b t
        = ((lseek b.it b.mint).1, ⟨(lseek b.it b.mint).2, b.mint, b.maxt⟩)) ∧
    (boundedSeek b t = (true, b2) →
      b.mint ≤ (latv b2.it).t ∧ t ≤ (latv b2.it).t) :=
  ⟨fun h => boundedNext_in_range b b2 h,
    fun h => boundedSeek_past_maxt b t h,
    fun h1 h2 => boundedSeek_clamps b t h1 h2,
    fun h => ⟨(boundedSeek_ge b t b2 h).1, (boundedSeek_ge b t b2 h).2.1⟩⟩

/-- C3 witness: a concrete in-window advance and a failing
past-the-window seek. -/
theorem claim_c3_witness :
    ((0 : Int) ≤ (latv ((⟨⟨some ⟨5, 1⟩, []⟩, 0, 10⟩ : BIt)).it).t ∧
      (latv ((⟨⟨some ⟨5, 1⟩, []⟩, 0, 10⟩ : BIt)).it).t ≤ 10) ∧
    boundedSeek (⟨freshIter [⟨5, 1⟩], 0, 10⟩ : BIt) 20
      = (false, ⟨freshIter [⟨5, 1⟩], 0, 10⟩) :=
  ⟨(claim_c3_bounded_window ⟨freshIter [⟨5, 1⟩], 0, 10⟩ ⟨⟨some ⟨5, 1⟩, []⟩, 0, 10⟩ 20).1
      (by decide),
    (claim_c3_bounded_window ⟨freshIter [⟨5, 1⟩], 0, 10⟩ ⟨⟨some ⟨5, 1⟩, []⟩, 0, 10⟩ 20).2.1
      (by decide)⟩

/-- C6 counterexample: with more configured replica names than labels
the Go loop indexes the label slice at a negative position and panics
(`none` here), even though the replica labels sit at the end; the claim
would require the stripped identity. -/
theorem claim_c6_counterexample :
    peekLset [⟨"a", "1"⟩, ⟨"r1", "x"⟩] ["r1", "r2", "r3"] = none ∧
      (none : Option (List Label)) ≠ some [⟨"a", "1"⟩] := by
  refine ⟨rfl, by simp⟩

/-- C6 amended: when the label set ends in exactly its replica-named
labels (no replica name earlier), these names are distinct, and the
label set has at least as many entries as there are configured replica
names, peekLset strips exactly the trailing replica labels. -/
theorem claim_c6_strip_trailing (p s : List Label) (rls : List String)
    (hp : ∀ l ∈ p, l.name ∉ rls) (hs : ∀ l ∈ s, l.name ∈ rls)
    (hnd : (s.map Label.name).Nodup)
    (hlen : rls.length ≤ p.length + s.length) :
    peekLset (p ++ s) rls = some p := by
  cases rls with
  | nil =>
    have hs0 : s = [] := by
      cases s with
      | nil => rfl
      | cons x xs => exact absurd (hs x (by simp)) (by simp)
    subst hs0
    simp [peekLset]
  | cons r rs =>
    exact peekLset_eq p s (r :: rs) hp hs hnd hlen (by simp)

/-- C6 witness: one trailing replica label stripped. -/
theorem claim_c6_witness :
    peekLset [⟨"job", "x"⟩, ⟨"replica", "a"⟩] ["replica"]
      = some [⟨"job", "x"⟩] :=
  claim_c6_strip_trailing [⟨"job", "x"⟩] [⟨"replica", "a"⟩] ["replica"]
    (by decide) (by decide) (by decide) (by decide)

/-- C1: one advance of the dedup iterator implements exactly the
spec's penalty-based leader selection (seek both live sides to
lastEmitted + 1 + penalty; smaller timestamp wins, ties to A; loser's
penalty is twice the gap, or 5000 before the first emission; winner's
penalty resets; single-live side selected unconditionally), stated as
a step refinement into the Option-based spec state. -/
theorem claim_c1_advance_refines_spec (st : DState)
    (h : ∀ s ∈ sideSamples st.a ++ sideSamples st.b, minInt64 < s.t) :
    (dedupNext st).1 = (dedupNextSpec (absD st)).1 ∧
      absD (dedupNext st).2 = (dedupNextSpec (absD st)).2 :=
  dedupNext_refines st h

/-- C1 witness: a concrete advance over two one-sample sides. -/
theorem claim_c1_witness :
    (dedupNext (freshD [⟨10, 1⟩] [⟨20, 2⟩])).1
        = (dedupNextSpec (absD (freshD [⟨10, 1⟩] [⟨20, 2⟩]))).1 ∧
      absD (dedupNext (freshD [⟨10, 1⟩] [⟨20, 2⟩])).2
        = (dedupNextSpec (absD (freshD [⟨10, 1⟩] [⟨20, 2⟩]))).2 :=
  claim_c1_advance_refines_spec (freshD [⟨10, 1⟩] [⟨20, 2⟩]) (by decide)

/-- C5 counterexample: with an exact tie at the first step, merge(A,B)
and merge(B,A) later emit different timestamp sequences, because the
penalty lands on different sides; the claim asserts identical
timestamps throughout. -/
theorem claim_c5_counterexample :
    (dedupTrace 3 (freshD [⟨0, 1⟩, ⟨10, 2⟩] [⟨0, 5⟩, ⟨3, 6⟩])).map (fun s => s.t)
        = [0, 10] ∧
      (dedupTrace 3 (freshD [⟨0, 5⟩, ⟨3, 6⟩] [⟨0, 1⟩, ⟨10, 2⟩])).map (fun s => s.t)
        = [0, 3] ∧
      ([0, 10] : List Int) ≠ [0, 3] := by
  refine ⟨by decide, by decide, by decide⟩

/-- C5 amended: when the two sides never present equal timestamps (so
no tie can occur), merge(A,B) and merge(B,A) emit identical sample
sequences -- timestamps and values. -/
theorem claim_c5_order_insensitive (A B : List Sample)
    (hdisj : ∀ sa ∈ A, ∀ sb ∈ B, sa.t ≠ sb.t) (n : Nat) :
    dedupTrace n (freshD A B) = dedupTrace n (freshD B A) := by
  rw [dedupTrace_fresh_swap A B n]
  exact (dedupTrace_swap A B hdisj n (freshD A B)
    (fun s hs => by simpa [freshD, freshIter, sideSamples] using hs)
    (fun s hs => by simpa [freshD, freshIter, sideSamples] using hs)).symm

/-- C5 witness: concrete disjoint-timestamp sides. -/
theorem claim_c5_witness :
    dedupTrace 3 (freshD [⟨1, 1⟩] [⟨5, 2⟩]) = dedupTrace 3 (freshD [⟨5, 2⟩] [⟨1, 1⟩]) :=
  claim_c5_order_insensitive [⟨1, 1⟩] [⟨5, 2⟩] (by decide) 3

/-- C8 counterexample: a sample with timestamp -5 (≥ the target -10)
is reached after one advance, yet Seek answers failure, because the
code additionally requires the current timestamp to be positive. -/
theorem claim_c8_counterexample :
    (dedupNext (freshD [⟨-5, 1⟩] [])).1 = true ∧
      (dedupAt (dedupNext (freshD [⟨-5, 1⟩] [])).2).t = -5 ∧
      ((-5 : Int) ≥ -10) ∧
      (dedupSeekF 5 (freshD [⟨-5, 1⟩] []) (-10)).1 = false := by
  refine ⟨by decide, by decide, by decide, by decide⟩

/-- C8 amended: on invariant states (in particular any state reachable
from a fresh iterator over positive-timestamp cursors), Seek is
exactly the spec loop: repeatedly advance until the current emitted
timestamp is ≥ t, succeeding exactly when such a sample is reached and
failing when the cursor is exhausted first. -/
theorem claim_c8_seek_is_advance_loop (fuel : Nat) (st : DState) (t : Int)
    (hg : GoodD st) : dedupSeekF fuel st t = specSeekF fuel st t :=
  dedupSeek_eq_specSeek fuel st t hg

/-- C8 witness: a concrete seek over positive-timestamp sides. -/
theorem claim_c8_witness :
    dedupSeekF 4 (freshD [⟨5, 1⟩] [⟨7, 2⟩]) 6
      = specSeekF 4 (freshD [⟨5, 1⟩] [⟨7, 2⟩]) 6 :=
  claim_c8_seek_is_advance_loop 4 (freshD [⟨5, 1⟩] [⟨7, 2⟩]) 6
    (goodD_fresh _ _ (by decide) (by decide))

/-- The start time of a decoded chunk: its first sample's timestamp. -/
def startT (c : List Sample) : Int := (c.headD ⟨0, 0⟩).t

/-- Chunk sample sequences sorted by chunk start time. -/
def sortedByStart (css : List (List Sample)) : Prop :=
  List.Chain' (fun a b => startT a ≤ startT b) css

/-- C2 counterexample: two sorted, duplicate-free, internally
increasing chunks with negative timestamps; entering the second chunk
the overlap-skip seek accepts the decoder's zero-initialised
placeholder (timestamp 0), which is emitted, so the output
[-5, 0, -3] is not strictly increasing. -/
theorem claim_c2_counterexample :
    sortedByStart [[⟨-5, 1⟩], [⟨-3, 2⟩]] ∧
      List.Chain' (fun a b : List Sample => a ≠ b) [[⟨-5, 1⟩], [⟨-3, 2⟩]] ∧
      (∀ c ∈ [[⟨-5, 1⟩], [⟨-3, 2⟩]],
        List.Chain' (fun x y : Sample => x.t < y.t) c) ∧
      (csiTrace 4 (initCSI [[⟨-5, 1⟩], [⟨-3, 2⟩]])).map (fun s => s.t)
        = [-5, 0, -3] ∧
      ¬ List.Chain' (fun x y : Int => x < y) [-5, 0, -3] := by
  refine ⟨?_, ?_, ?_, by decide, ?_⟩
  · simp [sortedByStart, startT]
  · simp
  · intro c hc
    simp only [List.mem_cons, List.not_mem_nil, or_false] at hc
    rcases hc with rfl | rfl <;> simp
  · intro hch
    rcases hch with _ | ⟨h1, hch⟩
    rcases hch with _ | ⟨h2, _⟩
    omega

/-- C2 amended: for chunk lists sorted by start time with exact
duplicates removed, samples strictly increasing inside each chunk, and
all timestamps positive (so the decoder's pre-first-sample placeholder
timestamp 0 can never satisfy an overlap-skip seek), the emitted
timestamps are strictly increasing. -/
theorem claim_c2_strictly_increasing (css : List (List Sample))
    (hsort : sortedByStart css)
    (hdup : List.Chain' (fun a b : List Sample => a ≠ b) css)
    (hinc : ∀ c ∈ css, List.Chain' (fun x y : Sample => x.t < y.t) c)
    (hpos : ∀ c ∈ css, ∀ s ∈ c, 0 < s.t) (n : Nat) :
    List.Chain' (fun x y : Int => x < y)
      ((csiTrace n (initCSI css)).map (fun s => s.t)) :=
  chain_to_chain2 _ _ _ (csiTrace_chain n _ (csiInv_init css hpos hinc))

/-- C2 witness: two overlapping positive chunks; the overlap-skip
discards the second chunk's sample at timestamp 3 ≤ 4. -/
theorem claim_c2_witness :
    List.Chain' (fun x y : Int => x < y)
      ((csiTrace 3 (initCSI [[⟨1, 5⟩, ⟨4, 6⟩], [⟨3, 7⟩]])).map (fun s => s.t)) :=
  claim_c2_strictly_increasing [[⟨1, 5⟩, ⟨4, 6⟩], [⟨3, 7⟩]]
    (by simp [sortedByStart, startT]) (by simp)
    (by
      intro c hc
      simp only [List.mem_cons, List.not_mem_nil, or_false] at hc
      rcases hc with rfl | rfl <;> simp [List.chain'_cons])
    (by decide) 3

/-- C7: for a single-kind aggregate request the per-chunk cursor comes
from the matching pre-aggregated payload when present, from the raw
payload when absent, and is the "no valid chunk found" error cursor
when neither exists; and chunkSeries.Iterator builds exactly these
per-chunk cursors for each of the five kinds. -/
theorem claim_c7_single_kind_selection (k : Aggr)
    (hk : k = Aggr.count ∨ k = Aggr.sum ∨ k = Aggr.min ∨ k = Aggr.max
      ∨ k = Aggr.counter) (c : AggrChunk) :
    (∀ pc, aggrPayload k c = some pc →
      getFirstIterator [aggrPayload k c, c.raw] = decodeChunk pc) ∧
    (aggrPayload k c = none → ∀ rc, c.raw = some rc →
      getFirstIterator [aggrPayload k c, c.raw] = decodeChunk rc) ∧
    (aggrPayload k c = none → c.raw = none →
      getFirstIterator [aggrPayload k c, c.raw]
        = errCk (some "no valid chunk found")) ∧
    (∀ s : ChunkSeries, s.aggrs = [k] →
      chunkSeriesIterator s = QIt.bounded
        (if k = Aggr.counter then
          SIt.counterIt
            (s.chunks.map (fun ch => getFirstIterator [aggrPayload k ch, ch.raw]))
        else
          newChunkSeriesIterator
            (s.chunks.map (fun ch => getFirstIterator [aggrPayload k ch, ch.raw])))
        s.mint s.maxt) := by
  refine ⟨?_, ?_, ?_, ?_⟩
  · intro pc hpc
    rw [hpc]
    rfl
  · intro h0 rc hrc
    rw [h0, hrc]
    rfl
  · intro h0 hr
    rw [h0, hr]
    rfl
  · intro s hs
    rcases s with ⟨lset, chunks, mint, maxt, aggrs⟩
    simp only at hs
    subst hs
    rcases hk with rfl | rfl | rfl | rfl | rfl <;>
      simp [chunkSeriesIterator, aggrPayload]

/-- C7 witness: a chunk carrying both a count payload and raw uses the
count payload for a count request. -/
theorem claim_c7_witness :
    getFirstIterator
        [aggrPayload Aggr.count
          ⟨0, 1, some ⟨0, [⟨1, 1⟩]⟩, some ⟨0, [⟨1, 2⟩]⟩, none, none, none, none⟩,
          (⟨0, 1, some ⟨0, [⟨1, 1⟩]⟩, some ⟨0, [⟨1, 2⟩]⟩, none, none, none, none⟩
            : AggrChunk).raw]
      = decodeChunk ⟨0, [⟨1, 2⟩]⟩ :=
  (claim_c7_single_kind_selection Aggr.count (Or.inl rfl)
    ⟨0, 1, some ⟨0, [⟨1, 1⟩]⟩, some ⟨0, [⟨1, 2⟩]⟩, none, none, none, none⟩).1
    ⟨0, [⟨1, 2⟩]⟩ rfl

/-- The aggregate specifications chunkSeries.Iterator can satisfy: a
recognised single kind or the sum/count pair. -/
def resolvable : List Aggr → Bool
  | [Aggr.count] => true
  | [Aggr.sum] => true
  | [Aggr.min] => true
  | [Aggr.max] => true
  | [Aggr.counter] => true
  | [Aggr.sum, Aggr.count] => true
  | [Aggr.count, Aggr.sum] => true
  | _ => false

/-- Next of the chunk series layer with a leading error cursor fails at
once, for every fuel. -/
theorem csiNextF_err_head (fuel : Nat) (l : List CkIt) (e : String) :
    csiNextF fuel ⟨errCk (some e) :: l, 0⟩ = (false, ⟨errCk (some e) :: l, 0⟩) := by
  cases fuel with
  | zero => rfl
  | succ m =>
    rw [csiNextF_exhausted m ⟨errCk (some e) :: l, 0⟩ ⟨0, 0⟩ (some e) rfl]
    simp [csiErr, ckErr, errCk]

/-- First access on a bounded chunk series whose first cursor is an
error cursor fails. -/
theorem qNext_csi_err_head (l : List CkIt) (e : String) (mint maxt : Int) :
    (qNext (QIt.bounded (SIt.csi ⟨errCk (some e) :: l, 0⟩) mint maxt)).1 = false := by
  simp [qNext, sNext, csiNext, csiNextF_err_head]


/-- A cursor whose Next does not move and whose error is set blocks the
chunk series iterator at chunk 0, for every fuel. -/
theorem csiNextF_stuck_head (fuel : Nat) (h : CkIt) (l : List CkIt) (e : String)
    (hn : ckNext h = (false, h)) (he : ckErr h = some e) :
    csiNextF fuel ⟨h :: l, 0⟩ = (false, ⟨h :: l, 0⟩) := by
  cases fuel with
  | zero => rfl
  | succ m =>
    simp only [csiNextF]
    rw [show ckNext ((⟨h :: l, 0⟩ : CSIState).chunks.getD 0 default) = (false, h)
      from hn]
    simp [csiErr, he]

/-- First access on a bounded chunk series over a blocked first cursor
fails, and the error is reported. -/
theorem qProps_err_head (h : CkIt) (l : List CkIt) (e : String) (mint maxt : Int)
    (hn : ckNext h = (false, h)) (he : ckErr h = some e) :
    (qNext (QIt.bounded (SIt.csi ⟨h :: l, 0⟩) mint maxt)).1 = false ∧
      qErr (QIt.bounded (SIt.csi ⟨h :: l, 0⟩) mint maxt) = some e := by
  have hstep : csiNext ⟨h :: l, 0⟩ = (false, ⟨h :: l, 0⟩) :=
    csiNextF_stuck_head _ h l e hn he
  constructor
  · simp [qNext, sNext, hstep]
  · simpa [qErr, sErr, csiErr] using he

/-- A decode with a non-nil error is exactly the bad-encoding error
cursor. -/
theorem decode_err_shape (r : Chunk) (e : String)
    (he : ckErr (decodeChunk r) = some e) : decodeChunk r = errCk (some e) := by
  by_cases ht : r.typ = xorEncoding
  · simp [decodeChunk, ht, decodedCk, ckErr] at he
  · simp only [decodeChunk, if_neg ht] at he ⊢
    simp only [errCk, ckErr, Option.some.injEq] at he
    rw [← he]

/-- C9: every series the query cannot satisfy still carries its label
set and a cursor that fails its first query reporting the error,
instead of being dropped: (a) an unresolvable aggregate specification
answers the error iterator at once; (b) for each of the five single
kinds -- counter included -- a first chunk whose payload selection
fails blocks the first access with that chunk's error; (c) for the
sum/count average pair, a first chunk whose raw payload fails to
decode, or whose derived average inputs carry an error, does the
same. -/
theorem claim_c9_failed_series_still_reported (s : ChunkSeries) :
    (resolvable s.aggrs = false →
      chunkSeriesIterator s = .direct (some "unexpected result aggregate type") ∧
      (qNext (chunkSeriesIterator s)).1 = false ∧
      qErr (chunkSeriesIterator s) = some "unexpected result aggregate type" ∧
      chunkSeriesLabels s = s.lset) ∧
    (∀ (k : Aggr) (c0 : AggrChunk) (rest : List AggrChunk) (e : String),
      (k = Aggr.count ∨ k = Aggr.sum ∨ k = Aggr.min ∨ k = Aggr.max
        ∨ k = Aggr.counter) →
      s.aggrs = [k] → s.chunks = c0 :: rest →
      getFirstIterator [aggrPayload k c0, c0.raw] = errCk (some e) →
      (qNext (chunkSeriesIterator s)).1 = false ∧
      qErr (chunkSeriesIterator s) = some e ∧
      chunkSeriesLabels s = s.lset) ∧
    (∀ (c0 : AggrChunk) (rest : List AggrChunk) (e : String),
      (s.aggrs = [Aggr.sum, Aggr.count] ∨ s.aggrs = [Aggr.count, Aggr.sum]) →
      s.chunks = c0 :: rest →
      ckErr (avgChunkIter c0) = some e →
      (qNext (chunkSeriesIterator s)).1 = false ∧
      qErr (chunkSeriesIterator s) = some e ∧
      chunkSeriesLabels s = s.lset) := by
  refine ⟨?_, ?_, ?_⟩
  · intro hres
    rcases s with ⟨lset, chunks, mint, maxt, aggrs⟩
    simp only [resolvable] at hres
    rcases aggrs with _ | ⟨a1, _ | ⟨a2, _ | ⟨a3, rest3⟩⟩⟩
    · exact ⟨rfl, rfl, rfl, rfl⟩
    · cases a1 <;>
        first
          | exact ⟨rfl, rfl, rfl, rfl⟩
          | simp at hres
    · cases a1 <;> cases a2 <;>
        first
          | exact ⟨rfl, rfl, rfl, rfl⟩
          | simp at hres
    · exact ⟨rfl, rfl, rfl, rfl⟩
  · intro k c0 rest e hk hs hc hfail
    rcases s with ⟨lset, chunks, mint, maxt, aggrs⟩
    simp only at hs hc
    subst hs
    subst hc
    rcases hk with rfl | rfl | rfl | rfl | rfl
    · simp only [aggrPayload] at hfail
      have hform : chunkSeriesIterator ⟨lset, c0 :: rest, mint, maxt, [Aggr.count]⟩
          = QIt.bounded (SIt.csi ⟨errCk (some e)
            :: rest.map (fun ch => getFirstIterator [ch.count, ch.raw]), 0⟩)
            mint maxt := by
        simp [chunkSeriesIterator, newChunkSeriesIterator, hfail]
      have hp := qProps_err_head (errCk (some e))
        (rest.map (fun ch => getFirstIterator [ch.count, ch.raw])) e mint maxt rfl rfl
      exact ⟨by rw [hform]; exact hp.1, by rw [hform]; exact hp.2, rfl⟩
    · simp only [aggrPayload] at hfail
      have hform : chunkSeriesIterator ⟨lset, c0 :: rest, mint, maxt, [Aggr.sum]⟩
          = QIt.bounded (SIt.csi ⟨errCk (some e)
            :: rest.map (fun ch => getFirstIterator [ch.sum, ch.raw]), 0⟩)
            mint maxt := by
        simp [chunkSeriesIterator, newChunkSeriesIterator, hfail]
      have hp := qProps_err_head (errCk (some e))
        (rest.map (fun ch => getFirstIterator [ch.sum, ch.raw])) e mint maxt rfl rfl
      exact ⟨by rw [hform]; exact hp.1, by rw [hform]; exact hp.2, rfl⟩
    · simp only [aggrPayload] at hfail
      have hform : chunkSeriesIterator ⟨lset, c0 :: rest, mint, maxt, [Aggr.min]⟩
          = QIt.bounded (SIt.csi ⟨errCk (some e)
            :: rest.map (fun ch => getFirstIterator [ch.min, ch.raw]), 0⟩)
            mint maxt := by
        simp [chunkSeriesIterator, newChunkSeriesIterator, hfail]
      have hp := qProps_err_head (errCk (some e))
        (rest.map (fun ch => getFirstIterator [ch.min, ch.raw])) e mint maxt rfl rfl
      exact ⟨by rw [hform]; exact hp.1, by rw [hform]; exact hp.2, rfl⟩
    · simp only [aggrPayload] at hfail
      have hform : chunkSeriesIterator ⟨lset, c0 :: rest, mint, maxt, [Aggr.max]⟩
          = QIt.bounded (SIt.csi ⟨errCk (some e)
            :: rest.map (fun ch => getFirstIterator [ch.max, ch.raw]), 0⟩)
            mint maxt := by
        simp [chunkSeriesIterator, newChunkSeriesIterator, hfail]
      have hp := qProps_err_head (errCk (some e))
        (rest.map (fun ch => getFirstIterator [ch.max, ch.raw])) e mint maxt rfl rfl
      exact ⟨by rw [hform]; exact hp.1, by rw [hform]; exact hp.2, rfl⟩
    · simp only [aggrPayload] at hfail
      have hform : chunkSeriesIterator ⟨lset, c0 :: rest, mint, maxt, [Aggr.counter]⟩
          = QIt.bounded (SIt.counterIt (errCk (some e)
            :: rest.map (fun ch => getFirstIterator [ch.counter, ch.raw])))
            mint maxt := by
        simp [chunkSeriesIterator, hfail]
      exact ⟨by rw [hform]; rfl, by rw [hform]; rfl, rfl⟩
  · intro c0 rest e hpair hc hfail
    rcases s with ⟨lset, chunks, mint, maxt, aggrs⟩
    simp only at hpair hc
    subst hc
    have hform : chunkSeriesIterator ⟨lset, c0 :: rest, mint, maxt, aggrs⟩
        = QIt.bounded (SIt.csi ⟨avgChunkIter c0 :: rest.map avgChunkIter, 0⟩)
          mint maxt := by
      rcases hpair with rfl | rfl <;>
        simp [chunkSeriesIterator, newChunkSeriesIterator]
    rcases hr : c0.raw with _ | r
    · have hhead : avgChunkIter c0
          = CkIt.avgOf (getFirstIterator [c0.count]) (getFirstIterator [c0.sum]) := by
        simp [avgChunkIter, hr]
      rw [hhead] at hfail
      have hp := qProps_err_head
        (CkIt.avgOf (getFirstIterator [c0.count]) (getFirstIterator [c0.sum]))
        (rest.map avgChunkIter) e mint maxt rfl hfail
      rw [hform, hhead]
      exact ⟨hp.1, hp.2, rfl⟩
    · have hhead : avgChunkIter c0 = decodeChunk r := by
        simp [avgChunkIter, hr, getFirstIterator]
      rw [hhead] at hfail
      have hdec := decode_err_shape r e hfail
      have hp := qProps_err_head (errCk (some e)) (rest.map avgChunkIter)
        e mint maxt rfl rfl
      rw [hform, hhead, hdec]
      exact ⟨hp.1, hp.2, rfl⟩

/-- C9 witness: an unresolvable request (raw), a count request, a
counter request and a sum/count average request, each over a chunk
with no usable payload, all keep their labels and fail the first
query with the error. -/
theorem claim_c9_witness :
    ((qNext (chunkSeriesIterator ⟨[⟨"a", "1"⟩], [], 0, 10, [Aggr.raw]⟩)).1 = false ∧
      chunkSeriesLabels ⟨[⟨"a", "1"⟩], [], 0, 10, [Aggr.raw]⟩ = [⟨"a", "1"⟩]) ∧
    ((qNext (chunkSeriesIterator
        ⟨[⟨"a", "1"⟩], [⟨0, 1, none, none, none, none, none, none⟩], 0, 10,
          [Aggr.count]⟩)).1 = false ∧
      qErr (chunkSeriesIterator
        ⟨[⟨"a", "1"⟩], [⟨0, 1, none, none, none, none, none, none⟩], 0, 10,
          [Aggr.count]⟩) = some "no valid chunk found") ∧
    ((qNext (chunkSeriesIterator
        ⟨[⟨"a", "1"⟩], [⟨0, 1, none, none, none, none, none, none⟩], 0, 10,
          [Aggr.counter]⟩)).1 = false ∧
      qErr (chunkSeriesIterator
        ⟨[⟨"a", "1"⟩], [⟨0, 1, none, none, none, none, none, none⟩], 0, 10,
          [Aggr.counter]⟩) = some "no valid chunk found") ∧
    ((qNext (chunkSeriesIterator
        ⟨[⟨"a", "1"⟩], [⟨0, 1, none, none, none, none, none, none⟩], 0, 10,
          [Aggr.sum, Aggr.count]⟩)).1 = false ∧
      qErr (chunkSeriesIterator
        ⟨[⟨"a", "1"⟩], [⟨0, 1, none, none, none, none, none, none⟩], 0, 10,
          [Aggr.sum, Aggr.count]⟩) = some "no valid chunk found") :=
  ⟨⟨((claim_c9_failed_series_still_reported
        ⟨[⟨"a", "1"⟩], [], 0, 10, [Aggr.raw]⟩).1 rfl).2.1,
      ((claim_c9_failed_series_still_reported
        ⟨[⟨"a", "1"⟩], [], 0, 10, [Aggr.raw]⟩).1 rfl).2.2.2⟩,
    ⟨(((claim_c9_failed_series_still_reported
        ⟨[⟨"a", "1"⟩], [⟨0, 1, none, none, none, none, none, none⟩], 0, 10,
          [Aggr.count]⟩).2.1 Aggr.count
        ⟨0, 1, none, none, none, none, none, none⟩ [] "no valid chunk found"
        (Or.inl rfl) rfl rfl rfl).1),
      (((claim_c9_failed_series_still_reported
        ⟨[⟨"a", "1"⟩], [⟨0, 1, none, none, none, none, none, none⟩], 0, 10,
          [Aggr.count]⟩).2.1 Aggr.count
        ⟨0, 1, none, none, none, none, none, none⟩ [] "no valid chunk found"
        (Or.inl rfl) rfl rfl rfl).2.1)⟩,
    ⟨(((claim_c9_failed_series_still_reported
        ⟨[⟨"a", "1"⟩], [⟨0, 1, none, none, none, none, none, none⟩], 0, 10,
          [Aggr.counter]⟩).2.1 Aggr.counter
        ⟨0, 1, none, none, none, none, none, none⟩ [] "no valid chunk found"
        (Or.inr (Or.inr (Or.inr (Or.inr rfl)))) rfl rfl rfl).1),
      (((claim_c9_failed_series_still_reported
        ⟨[⟨"a", "1"⟩], [⟨0, 1, none, none, none, none, none, none⟩], 0, 10,
          [Aggr.counter]⟩).2.1 Aggr.counter
        ⟨0, 1, none, none, none, none, none, none⟩ [] "no valid chunk found"
        (Or.inr (Or.inr (Or.inr (Or.inr rfl)))) rfl rfl rfl).2.1)⟩,
    ⟨(((claim_c9_failed_series_still_reported
        ⟨[⟨"a", "1"⟩], [⟨0, 1, none, none, none, none, none, none⟩], 0, 10,
          [Aggr.sum, Aggr.count]⟩).2.2
        ⟨0, 1, none, none, none, none, none, none⟩ [] "no valid chunk found"
        (Or.inl rfl) rfl rfl).1),
      (((claim_c9_failed_series_still_reported
        ⟨[⟨"a", "1"⟩], [⟨0, 1, none, none, none, none, none, none⟩], 0, 10,
          [Aggr.sum, Aggr.count]⟩).2.2
        ⟨0, 1, none, none, none, none, none, none⟩ [] "no valid chunk found"
        (Or.inl rfl) rfl rfl).2.1)⟩⟩
